import Mathlib

/-!
Shallow embedding, over exact rationals, of the core of the NPS_time_to_event
repository:

* `nps_nhpp` embeds the batched categorical sampler of
  `src/python/nps_nhpp.py` (the `nps_nhpp` function).  The per-row uniform
  draws produced by `np.random.uniform` at line 75 are injected as an explicit
  argument `u : ℕ → ℚ` (row `i` consumes `u i`); everything after the draw is
  deterministic array arithmetic and is modelled directly.  The `Bool`
  component of the result records whether the invalid-correction warning of
  lines 59-61 was printed.

* `buildStratum` / `completedPMF` embed the per-stratum hazard-to-PMF pipeline
  of `src/python/02_homogeneous_cohort.py` and `03_heterogeneous_cohort.py`
  (lines 33-57, columns `H_t`, `S_t`, `F_t`, `p_t` and the appended
  `df_mort_append_0` row).  The pandas `groupby('Sex')` applies exactly this
  computation independently to each stratum's rows, sorted by age, so the
  embedding takes one stratum's ordered `Rate` column (and, for
  `buildStratum`, its `(Age, Rate)` pairs).  The floating-point `np.exp(-x)`
  of line 35 is abstracted as a function parameter `expNeg : ℚ → ℚ`; theorems
  that need properties of the exponential take them as hypotheses.

Division by zero in ℚ yields 0 where NumPy would produce NaN (0.0/0.0): for an
all-zero row, the NaN row makes every comparison `cum >= u` false and argmax
returns 0, while the ℚ model gives a zero cumulative row whose comparisons are
either all false (u > 0, argmax 0) or true at index 0 (u ≤ 0, argmax 0) — the
observable sampled position is 0 in both semantics, so the two agree on every
behaviour stated below.
-/

/-- Result of `nps_nhpp`: a 1-D array of sampled labels, or the 2-D array
produced by the broadcast in the `correction == "uniform"` branch. -/
inductive NpsOut where
  | vec : List ℚ → NpsOut
  | mat : List (List ℚ) → NpsOut
deriving DecidableEq

/-- Absolute tolerance of numpy's `np.isclose(x, 1)` with the default
`rtol = 1e-5`, `atol = 1e-8`: the test is `|x - 1| <= atol + rtol * |1|`. -/
def iscloseTol : ℚ := 1001 / 100000000

/-- Boolean test modelling `np.isclose(x, 1)` with numpy's default tolerances. -/
def isclose1 (x : ℚ) : Bool := decide (|x - 1| ≤ iscloseTol)

/-- Lines 67-69 of `nps_nhpp.py`: when not every row sum passes `np.isclose`
against 1, every row of the matrix is divided by its own sum (keepdims
row-wise division); otherwise the matrix is passed through unchanged. -/
def normalizeMatrix (m : List (List ℚ)) : List (List ℚ) :=
  if (m.all fun r => isclose1 r.sum) = true then m
  else m.map fun r => r.map fun x => x / r.sum

/-- Running prefix sums with an accumulator; `cumsumFrom 0` is `np.cumsum` of
one row. -/
def cumsumFrom (acc : ℚ) : List ℚ → List ℚ
  | [] => []
  | r :: rs => (acc + r) :: cumsumFrom (acc + r) rs

/-- Row-wise `np.cumsum` (axis 1), line 79 of `nps_nhpp.py`. -/
def cumsumRow (l : List ℚ) : List ℚ := cumsumFrom 0 l

/-- Cumulative-probability matrix of line 79, computed from the conditionally
renormalized input. -/
def cumOf (m : List (List ℚ)) : List (List ℚ) := (normalizeMatrix m).map cumsumRow

/-- Position of the first `true` in a boolean list, if any. -/
def firstTrue : List Bool → Option ℕ
  | [] => none
  | b :: bs => if b then some 0 else (firstTrue bs).map (· + 1)

/-- Model of `np.argmax` on a boolean vector (lines 82-85 of `nps_nhpp.py`):
the first `true` position, and 0 when every entry is `false`. -/
def argmaxBool (bs : List Bool) : ℕ := (firstTrue bs).getD 0

/-- Sampled position for one row: `np.argmax(cum_row >= u)`. -/
def posOf (cumrow : List ℚ) (u : ℚ) : ℕ :=
  argmaxBool (cumrow.map fun c => decide (u ≤ c))

/-- Vector of sampled positions, one per row of the cumulative matrix
(lines 82-85 of `nps_nhpp.py`). -/
def positionsOf (cum : List (List ℚ)) (u : ℕ → ℚ) : List ℕ :=
  (List.range cum.length).map fun i => posOf (cum.getD i []) (u i)

/-- Effective category labels (lines 63-65 of `nps_nhpp.py`): the caller's
labels when given, else `np.arange(0, n_columns)`. -/
def catsOf (m : List (List ℚ)) : Option (List ℚ) → List ℚ
  | some cs => cs
  | none => (List.range (m.headD []).length).map (Nat.cast : ℕ → ℚ)

/-- Per-row sampled labels `a_categories[positions]`, line 87 of
`nps_nhpp.py`.  The model assumes the caller's label list matches the column
count, as the repository's call sites do (numpy raises `IndexError`
otherwise); positions themselves are always below the column count. -/
def sampledVals (m : List (List ℚ)) (cats : Option (List ℚ)) (u : ℕ → ℚ) : List ℚ :=
  (positionsOf (cumOf m) u).map fun p => (catsOf m cats).getD p 0

/-- Full embedding of `nps_nhpp` (lines 57-92 of `nps_nhpp.py`).  The `Bool`
records whether the warning of lines 59-61 was printed (the function keeps
going either way and overwrites `corresponding_values` at line 87).  In the
`"uniform"` branch, line 90 adds the shape `(n,)` label vector to the shape
`(n,1)` column of draws, which numpy broadcasts to an `(n,n)` matrix whose
entry `(i, j)` is `sampled_label[j] + u[i]`; the embedding reproduces that
broadcast. -/
def nps_nhpp (m : List (List ℚ)) (correction : String) (cats : Option (List ℚ))
    (u : ℕ → ℚ) : Bool × NpsOut :=
  let warned := !(correction == "none" || correction == "uniform")
  if correction == "uniform" then
    (warned,
      NpsOut.mat ((List.range m.length).map fun i =>
        (sampledVals m cats u).map fun v => v + u i))
  else
    (warned, NpsOut.vec (sampledVals m cats u))

/-- Per-stratum cumulative hazard `H_t`: `groupby('Sex')['Rate'].cumsum()`,
line 34 of `02_homogeneous_cohort.py` / `03_heterogeneous_cohort.py`. -/
def H_t (rates : List ℚ) : List ℚ := cumsumRow rates

/-- Survival column `S_t = np.exp(-H_t)`, line 35; `expNeg` abstracts
`x ↦ np.exp(-x)`. -/
def S_t (expNeg : ℚ → ℚ) (rates : List ℚ) : List ℚ := (H_t rates).map expNeg

/-- Cumulative failure column `F_t = 1 - S_t`, line 36. -/
def F_t (expNeg : ℚ → ℚ) (rates : List ℚ) : List ℚ :=
  (S_t expNeg rates).map fun s => 1 - s

/-- Pandas `diff()` within a group with the leading NaN filled by the value
itself (line 37): first entry kept, later entries are consecutive
differences. -/
def diffFill : List ℚ → List ℚ
  | [] => []
  | f :: fs => f :: List.zipWith (fun a b => a - b) fs (f :: fs)

/-- Instantaneous probability column `p_t`, line 37. -/
def p_t (expNeg : ℚ → ℚ) (rates : List ℚ) : List ℚ := diffFill (F_t expNeg rates)

/-- Completed per-stratum PMF: the `p_t` column followed by the probability
`1 - F_t(last)` of the single appended `df_mort_append_0` row
(lines 44-57). -/
def completedPMF (expNeg : ℚ → ℚ) (rates : List ℚ) : List ℚ :=
  p_t expNeg rates ++ [1 - (F_t expNeg rates).getLastD 0]

/-- One stratum's `(Age, p_t)` rows after the append-and-concat of
lines 44-57: the observed ages paired with `p_t`, then the synthetic row
whose age is the hardcoded constant `101` (line 46) and whose probability is
`1 - F_t(last)` (line 47). -/
def buildStratum (expNeg : ℚ → ℚ) (rows : List (ℚ × ℚ)) : List (ℚ × ℚ) :=
  (rows.map Prod.fst).zip (p_t expNeg (rows.map Prod.snd))
    ++ [(101, 1 - (F_t expNeg (rows.map Prod.snd)).getLastD 0)]

/-- Unfolding of `nps_nhpp` for a correction other than `"uniform"`: the
warning flag together with the 1-D array of sampled labels. -/
lemma nps_nhpp_eq_vec (m : List (List ℚ)) (correction : String)
    (cats : Option (List ℚ)) (u : ℕ → ℚ) (h : correction ≠ "uniform") :
    nps_nhpp m correction cats u
      = (!(correction == "none" || correction == "uniform"),
          NpsOut.vec (sampledVals m cats u)) := by
  simp [nps_nhpp, h]

/-- Unfolding of `nps_nhpp` in the `"uniform"` branch: the broadcast 2-D
result. -/
lemma nps_nhpp_eq_mat (m : List (List ℚ)) (cats : Option (List ℚ)) (u : ℕ → ℚ) :
    nps_nhpp m "uniform" cats u
      = (false,
          NpsOut.mat ((List.range m.length).map fun i =>
            (sampledVals m cats u).map fun v => v + u i)) := by
  simp [nps_nhpp]

lemma normalizeMatrix_length (m : List (List ℚ)) :
    (normalizeMatrix m).length = m.length := by
  unfold normalizeMatrix
  split
  · rfl
  · exact List.length_map _ _

lemma cumsumFrom_length (acc : ℚ) (l : List ℚ) :
    (cumsumFrom acc l).length = l.length := by
  induction l generalizing acc with
  | nil => rfl
  | cons r rs ih => simp [cumsumFrom, ih]

lemma cumsumRow_length (l : List ℚ) : (cumsumRow l).length = l.length :=
  cumsumFrom_length 0 l

lemma cumOf_length (m : List (List ℚ)) : (cumOf m).length = m.length := by
  unfold cumOf
  rw [List.length_map, normalizeMatrix_length]

lemma positionsOf_length (cum : List (List ℚ)) (u : ℕ → ℚ) :
    (positionsOf cum u).length = cum.length := by
  unfold positionsOf
  rw [List.length_map, List.length_range]

lemma sampledVals_length (m : List (List ℚ)) (cats : Option (List ℚ)) (u : ℕ → ℚ) :
    (sampledVals m cats u).length = m.length := by
  unfold sampledVals
  rw [List.length_map, positionsOf_length, cumOf_length]

lemma positionsOf_getD (cum : List (List ℚ)) (u : ℕ → ℚ) (i : ℕ)
    (hi : i < cum.length) :
    (positionsOf cum u).getD i 0 = posOf (cum.getD i []) (u i) := by
  unfold positionsOf
  rw [List.getD_eq_getElem?_getD, List.getElem?_map, List.getElem?_range hi]
  rfl

lemma firstTrue_eq_none (bs : List Bool) (h : ∀ b ∈ bs, b = false) :
    firstTrue bs = none := by
  induction bs with
  | nil => rfl
  | cons b bs ih =>
      have hb : b = false := h b (List.mem_cons_self b bs)
      subst hb
      simp only [firstTrue, if_false, Bool.false_eq_true]
      rw [ih fun x hx => h x (List.mem_cons_of_mem _ hx)]
      rfl

lemma firstTrue_spec (bs : List Bool) (j : ℕ) (h : firstTrue bs = some j) :
    j < bs.length ∧ bs.getD j false = true ∧ ∀ i, i < j → bs.getD i false = false := by
  induction bs generalizing j with
  | nil => simp [firstTrue] at h
  | cons b bs ih =>
      by_cases hb : b = true
      · subst hb
        simp only [firstTrue, if_true] at h
        cases h
        refine ⟨Nat.succ_pos _, rfl, ?_⟩
        intro i hi
        exact absurd hi (Nat.not_lt_zero i)
      · have hb' : b = false := Bool.eq_false_iff.mpr hb
        subst hb'
        simp only [firstTrue, Bool.false_eq_true, if_false] at h
        cases hj : firstTrue bs with
        | none => rw [hj] at h; simp at h
        | some j' =>
            rw [hj] at h
            simp only [Option.map_some'] at h
            obtain ⟨hlt, hget, hbefore⟩ := ih j' hj
            cases h
            refine ⟨Nat.succ_lt_succ hlt, hget, ?_⟩
            intro i hi
            cases i with
            | zero => rfl
            | succ i' => exact hbefore i' (Nat.lt_of_succ_lt_succ hi)

lemma firstTrue_isSome (bs : List Bool) (j : ℕ) (hj : j < bs.length)
    (h : bs.getD j false = true) : ∃ k, firstTrue bs = some k := by
  induction bs generalizing j with
  | nil => exact absurd hj (Nat.not_lt_zero j)
  | cons b bs ih =>
      by_cases hb : b = true
      · exact ⟨0, by simp [firstTrue, hb]⟩
      · have hb' : b = false := Bool.eq_false_iff.mpr hb
        subst hb'
        cases j with
        | zero => simp at h
        | succ j' =>
            obtain ⟨k, hk⟩ := ih j' (Nat.lt_of_succ_lt_succ hj) h
            exact ⟨k + 1, by simp [firstTrue, hk]⟩

lemma getLastD_mem (l : List ℚ) (h : l ≠ []) : ∀ d, l.getLastD d ∈ l := by
  induction l with
  | nil => exact absurd rfl h
  | cons x xs ih =>
      intro d
      cases xs with
      | nil => simp [List.getLastD]
      | cons y ys =>
          rw [List.getLastD_cons]
          exact List.mem_cons_of_mem _ (ih (List.cons_ne_nil y ys) x)

lemma map_decide_getD (cumrow : List ℚ) (u : ℚ) (j : ℕ) (hj : j < cumrow.length) :
    (cumrow.map fun c => decide (u ≤ c)).getD j false = decide (u ≤ cumrow.getD j 0) := by
  rw [List.getD_eq_getElem?_getD, List.getElem?_map, List.getElem?_eq_getElem hj,
    List.getD_eq_getElem cumrow 0 hj]
  rfl

/-- When some cumulative value meets the draw, `np.argmax` returns the least
index whose cumulative value meets it. -/
lemma posOf_spec (cumrow : List ℚ) (u : ℚ)
    (h : ∃ j, j < cumrow.length ∧ u ≤ cumrow.getD j 0) :
    posOf cumrow u < cumrow.length
    ∧ u ≤ cumrow.getD (posOf cumrow u) 0
    ∧ ∀ j, j < posOf cumrow u → cumrow.getD j 0 < u := by
  obtain ⟨j, hj, hle⟩ := h
  have hlen : (cumrow.map fun c => decide (u ≤ c)).length = cumrow.length :=
    List.length_map _ _
  have hget : (cumrow.map fun c => decide (u ≤ c)).getD j false = true := by
    rw [map_decide_getD cumrow u j hj]
    exact decide_eq_true hle
  obtain ⟨k, hk⟩ := firstTrue_isSome _ j (hlen ▸ hj) hget
  obtain ⟨hklt, hkget, hkbefore⟩ := firstTrue_spec _ k hk
  have hpos : posOf cumrow u = k := by
    unfold posOf argmaxBool
    rw [hk]
    rfl
  rw [hpos]
  have hklt' : k < cumrow.length := hlen ▸ hklt
  refine ⟨hklt', ?_, ?_⟩
  · rw [map_decide_getD cumrow u k hklt'] at hkget
    exact of_decide_eq_true hkget
  · intro j' hj'
    have hj'lt : j' < cumrow.length := lt_trans hj' hklt'
    have := hkbefore j' hj'
    rw [map_decide_getD cumrow u j' hj'lt] at this
    exact lt_of_not_le (of_decide_eq_false this)

/-- When every cumulative value is below the draw, `np.argmax` of the all-false
comparison row returns 0. -/
lemma posOf_all_lt (cumrow : List ℚ) (u : ℚ)
    (h : ∀ c ∈ cumrow, c < u) : posOf cumrow u = 0 := by
  unfold posOf argmaxBool
  rw [firstTrue_eq_none]
  · rfl
  · intro b hb
    obtain ⟨c, hc, rfl⟩ := List.mem_map.mp hb
    exact decide_eq_false (not_le_of_lt (h c hc))

lemma cumsumFrom_le (acc : ℚ) (l : List ℚ) (hl : ∀ r ∈ l, 0 ≤ r) :
    ∀ x ∈ cumsumFrom acc l, acc ≤ x := by
  induction l generalizing acc with
  | nil => intro x hx; simp [cumsumFrom] at hx
  | cons r rs ih =>
      intro x hx
      have hr : 0 ≤ r := hl r (List.mem_cons_self r rs)
      rcases List.mem_cons.mp hx with hx | hx
      · rw [hx]; linarith
      · have := ih (acc + r) (fun q hq => hl q (List.mem_cons_of_mem _ hq)) x hx
        linarith

lemma cumsumFrom_le_getLastD (acc : ℚ) (l : List ℚ) (hl : ∀ r ∈ l, 0 ≤ r) :
    ∀ x ∈ cumsumFrom acc l, x ≤ (cumsumFrom acc l).getLastD acc := by
  induction l generalizing acc with
  | nil => intro x hx; simp [cumsumFrom] at hx
  | cons r rs ih =>
      intro x hx
      simp only [cumsumFrom, List.getLastD_cons]
      rcases List.mem_cons.mp hx with hx | hx
      · subst hx
        cases hrest : cumsumFrom (acc + r) rs with
        | nil => simp [List.getLastD]
        | cons y ys =>
            have hmem : (y :: ys).getLastD (acc + r) ∈ cumsumFrom (acc + r) rs := by
              rw [hrest]
              exact getLastD_mem _ (List.cons_ne_nil y ys) _
            exact cumsumFrom_le (acc + r) rs
              (fun q hq => hl q (List.mem_cons_of_mem _ hq)) _ hmem
      · exact ih (acc + r) (fun q hq => hl q (List.mem_cons_of_mem _ hq)) x hx

lemma normalizeMatrix_row_nonneg (m : List (List ℚ))
    (hm : ∀ row ∈ m, ∀ x ∈ row, 0 ≤ x) :
    ∀ row ∈ normalizeMatrix m, ∀ x ∈ row, 0 ≤ x := by
  unfold normalizeMatrix
  split
  · exact hm
  · intro row hrow x hx
    obtain ⟨r, hr, rfl⟩ := List.mem_map.mp hrow
    obtain ⟨y, hy, rfl⟩ := List.mem_map.mp hx
    exact div_nonneg (hm r hr y hy) (List.sum_nonneg (hm r hr))

lemma cumOf_getD (m : List (List ℚ)) (i : ℕ) (hi : i < m.length) :
    (cumOf m).getD i [] = cumsumRow ((normalizeMatrix m).getD i []) := by
  have hi' : i < (normalizeMatrix m).length := by
    rw [normalizeMatrix_length]; exact hi
  unfold cumOf
  rw [List.getD_eq_getElem?_getD, List.getElem?_map, List.getElem?_eq_getElem hi',
    List.getD_eq_getElem _ _ hi']
  rfl

lemma getD_mem_of_lt (l : List ℚ) (i : ℕ) (d : ℚ) (hi : i < l.length) :
    l.getD i d ∈ l := by
  rw [List.getD_eq_getElem _ _ hi]
  exact List.getElem_mem hi

lemma getD_row_mem (m : List (List ℚ)) (i : ℕ) (hi : i < m.length) :
    m.getD i [] ∈ m := by
  rw [List.getD_eq_getElem _ _ hi]
  exact List.getElem_mem hi

/-- Claim C1 (amended).  For a probability matrix with nonnegative entries and
at least one row and column, the sampled index for row `i` is the smallest
category index whose cumulative probability meets that row's uniform draw,
whenever such an index exists.  When the draw exceeds the last cumulative
value (the floating-point shortfall case), `np.argmax` of the all-false
comparison row returns 0, so the sampled index falls back to the FIRST
category (index 0) — not to the last index `n_categories - 1` stated by the
original claim. -/
theorem nps_nhpp_inverse_cdf_index_amended (m : List (List ℚ)) (u : ℕ → ℚ) (i : ℕ)
    (hm : ∀ row ∈ m, ∀ x ∈ row, 0 ≤ x) (_hcols : ∀ row ∈ m, row ≠ [])
    (hi : i < m.length) :
    ((∃ j, j < ((cumOf m).getD i []).length ∧ u i ≤ ((cumOf m).getD i []).getD j 0) →
        ((positionsOf (cumOf m) u).getD i 0 < ((cumOf m).getD i []).length
          ∧ u i ≤ ((cumOf m).getD i []).getD ((positionsOf (cumOf m) u).getD i 0) 0
          ∧ ∀ j, j < (positionsOf (cumOf m) u).getD i 0 →
              ((cumOf m).getD i []).getD j 0 < u i))
    ∧ (((cumOf m).getD i []).getLastD 0 < u i →
        (positionsOf (cumOf m) u).getD i 0 = 0) := by
  have hicum : i < (cumOf m).length := by rw [cumOf_length]; exact hi
  have hgd := positionsOf_getD (cumOf m) u i hicum
  constructor
  · intro hex
    rw [hgd]
    exact posOf_spec _ _ hex
  · intro hlast
    rw [hgd]
    apply posOf_all_lt
    intro c hc
    have hrowmem : (normalizeMatrix m).getD i [] ∈ normalizeMatrix m := by
      apply getD_row_mem
      rw [normalizeMatrix_length]; exact hi
    have hnn : ∀ x ∈ (normalizeMatrix m).getD i [], 0 ≤ x :=
      normalizeMatrix_row_nonneg m hm _ hrowmem
    rw [cumOf_getD m i hi] at hc hlast
    exact lt_of_le_of_lt (cumsumFrom_le_getLastD 0 _ hnn c hc) hlast

/-- Claim C1, counterexample to the original clamping clause.  The single-row
matrix `[[1/2, 1/2 - 1e-9]]` passes the isclose check (so it is not
renormalized); with draw `u = 1 - 1e-10` every cumulative value is below the
draw, and the sampled index is 0 — the first category — whereas the claim
requires the last index `n_categories - 1 = 1`; the sampled label is 0, not
the claimed label 1. -/
theorem nps_nhpp_inverse_cdf_clamp_cex :
    (∀ c ∈ (cumOf [[1/2, 499999999/1000000000]]).getD 0 [],
        c < (9999999999/10000000000 : ℚ))
    ∧ (positionsOf (cumOf [[1/2, 499999999/1000000000]])
        (fun _ => 9999999999/10000000000)).getD 0 0 = 0
    ∧ nps_nhpp [[1/2, 499999999/1000000000]] "none" none
        (fun _ => 9999999999/10000000000) = (false, NpsOut.vec [0])
    ∧ (0 : ℕ) ≠ 2 - 1 := by
  have hnorm : normalizeMatrix [[1/2, 499999999/1000000000]]
      = [[1/2, 499999999/1000000000]] := by
    norm_num [normalizeMatrix, isclose1, iscloseTol, abs_le]
  have hcum : cumOf [[1/2, 499999999/1000000000]]
      = [[1/2, 999999999/1000000000]] := by
    rw [cumOf, hnorm]
    norm_num [cumsumRow, cumsumFrom]
  refine ⟨?_, ?_, ?_, by norm_num⟩
  · rw [hcum]
    norm_num
  · rw [positionsOf, hcum]
    norm_num [List.range_succ, posOf, argmaxBool, firstTrue]
  · rw [nps_nhpp_eq_vec _ _ _ _ (by simp)]
    norm_num [sampledVals, hcum, positionsOf, List.range_succ, posOf, argmaxBool,
      firstTrue, catsOf]

/-- Claim C1, witness for the amended theorem at the matrix `[[1/2, 1/2]]`
with draw 3/4: the sampled index satisfies the least-index characterization
and the all-below-draw fallback statement is available. -/
theorem nps_nhpp_inverse_cdf_index_witness :
    (positionsOf (cumOf [[1/2, 1/2]]) (fun _ => 3/4)).getD 0 0
        < ((cumOf [[1/2, 1/2]]).getD 0 []).length
    ∧ (3/4 : ℚ) ≤ ((cumOf [[1/2, 1/2]]).getD 0 []).getD
        ((positionsOf (cumOf [[1/2, 1/2]]) (fun _ => 3/4)).getD 0 0) 0 := by
  have hnorm : normalizeMatrix [[1/2, 1/2]] = [[1/2, 1/2]] := by
    norm_num [normalizeMatrix, isclose1, iscloseTol, abs_le]
  have hcum : cumOf [[1/2, 1/2]] = [[1/2, 1]] := by
    rw [cumOf, hnorm]
    norm_num [cumsumRow, cumsumFrom]
  have h := nps_nhpp_inverse_cdf_index_amended [[1/2, 1/2]] (fun _ => 3/4) 0
    (by norm_num) (by simp) (by norm_num)
  have hex : ∃ j, j < ((cumOf [[1/2, 1/2]]).getD 0 []).length
      ∧ (fun _ : ℕ => (3/4 : ℚ)) 0 ≤ ((cumOf [[1/2, 1/2]]).getD 0 []).getD j 0 := by
    refine ⟨1, ?_, ?_⟩ <;> rw [hcum] <;> norm_num
  exact ⟨(h.1 hex).1, (h.1 hex).2.1⟩

lemma posOf_lt_length (cumrow : List ℚ) (u : ℚ) (h : cumrow ≠ []) :
    posOf cumrow u < cumrow.length := by
  unfold posOf argmaxBool
  cases hf : firstTrue (cumrow.map fun c => decide (u ≤ c)) with
  | none =>
      simp only [Option.getD_none]
      exact List.length_pos.mpr h
  | some j =>
      have hj := (firstTrue_spec _ j hf).1
      rw [List.length_map] at hj
      simpa using hj

lemma normalizeMatrix_getD (m : List (List ℚ)) (i : ℕ) (hi : i < m.length) :
    (normalizeMatrix m).getD i []
      = if (m.all fun r => isclose1 r.sum) = true then m.getD i []
        else (m.getD i []).map fun x => x / (m.getD i []).sum := by
  unfold normalizeMatrix
  split
  · rfl
  · rw [List.getD_eq_getElem?_getD, List.getElem?_map, List.getElem?_eq_getElem hi,
      List.getD_eq_getElem _ _ hi]
    rfl

lemma normalizeMatrix_getD_length (m : List (List ℚ)) (i : ℕ) (hi : i < m.length) :
    ((normalizeMatrix m).getD i []).length = (m.getD i []).length := by
  rw [normalizeMatrix_getD m i hi]
  split
  · rfl
  · exact List.length_map _ _

lemma cumOf_getD_length (m : List (List ℚ)) (i : ℕ) (hi : i < m.length) :
    ((cumOf m).getD i []).length = (m.getD i []).length := by
  rw [cumOf_getD m i hi, cumsumRow_length, normalizeMatrix_getD_length m i hi]

/-- Claim C4 (amended).  With correction `"none"`, `nps_nhpp` returns exactly
`n_rows` sampled values, each a member of the effective category list (the
caller's labels, or the default indices `0 .. n_categories - 1`).  With
correction `"uniform"` the call instead returns the broadcast
`n_rows × n_rows` 2-D array of line 90 — `n_rows` rows of `n_rows` jittered
values each, which is `n_rows` scalar outputs only when `n_rows = 1`. -/
theorem nps_nhpp_output_shape_amended (m : List (List ℚ)) (cats : Option (List ℚ))
    (u : ℕ → ℚ) (k : ℕ) (hk : 0 < k) (hrect : ∀ row ∈ m, row.length = k)
    (hcats : ∀ cs, cats = some cs → cs.length = k) :
    (nps_nhpp m "none" cats u = (false, NpsOut.vec (sampledVals m cats u))
      ∧ (sampledVals m cats u).length = m.length
      ∧ ∀ x ∈ sampledVals m cats u, x ∈ catsOf m cats)
    ∧ (nps_nhpp m "uniform" cats u
        = (false, NpsOut.mat ((List.range m.length).map fun i =>
            (sampledVals m cats u).map fun v => v + u i))
      ∧ ((List.range m.length).map fun i =>
          (sampledVals m cats u).map fun v => v + u i).length = m.length
      ∧ ∀ row ∈ (List.range m.length).map fun i =>
          (sampledVals m cats u).map fun v => v + u i, row.length = m.length) := by
  have hcatslen : m ≠ [] → (catsOf m cats).length = k := by
    intro hm
    cases cats with
    | some cs => exact hcats cs rfl
    | none =>
        show ((List.range (m.headD []).length).map (Nat.cast : ℕ → ℚ)).length = k
        rw [List.length_map, List.length_range]
        cases m with
        | nil => exact absurd rfl hm
        | cons r rs => exact hrect r (List.mem_cons_self r rs)
  refine ⟨⟨nps_nhpp_eq_vec m "none" cats u (by simp), sampledVals_length m cats u, ?_⟩,
    ⟨nps_nhpp_eq_mat m cats u, by rw [List.length_map, List.length_range], ?_⟩⟩
  · intro x hx
    obtain ⟨p, hp, rfl⟩ := List.mem_map.mp hx
    unfold positionsOf at hp
    obtain ⟨i, hi, rfl⟩ := List.mem_map.mp hp
    have hi' : i < m.length := by
      rw [List.mem_range, cumOf_length] at hi
      exact hi
    have hrowlen : ((cumOf m).getD i []).length = k := by
      rw [cumOf_getD_length m i hi']
      exact hrect _ (getD_row_mem m i hi')
    have hne : (cumOf m).getD i [] ≠ [] := by
      intro hcontra
      rw [hcontra] at hrowlen
      exact absurd hrowlen.symm (Nat.ne_of_gt hk)
    have hplt : posOf ((cumOf m).getD i []) (u i) < k := by
      rw [← hrowlen]
      exact posOf_lt_length _ _ hne
    have hmne : m ≠ [] := by
      intro hcontra
      rw [hcontra] at hi'
      exact absurd hi' (Nat.not_lt_zero i)
    apply getD_mem_of_lt
    rw [hcatslen hmne]
    exact hplt
  · intro row hrow
    obtain ⟨i, _, rfl⟩ := List.mem_map.mp hrow
    rw [List.length_map, sampledVals_length]

/-- Claim C4, counterexample to the `"uniform"` half of the original claim:
on the 2-row matrix `[[1,0],[0,1]]` the `"uniform"` call returns a 2 × 2
array holding 4 scalar values, not exactly 2 outputs. -/
theorem nps_nhpp_output_count_cex :
    nps_nhpp [[1, 0], [0, 1]] "uniform" none (fun i => if i = 0 then 1/4 else 1/2)
      = (false, NpsOut.mat [[1/4, 5/4], [1/2, 3/2]])
    ∧ (([[1/4, 5/4], [1/2, 3/2]] : List (List ℚ)).map List.length).sum = 4
    ∧ ([[1, 0], [0, 1]] : List (List ℚ)).length = 2
    ∧ (4 : ℕ) ≠ 2 := by
  have hnorm : normalizeMatrix [[1, 0], [0, 1]] = [[1, 0], [0, 1]] := by
    norm_num [normalizeMatrix, isclose1, iscloseTol, abs_le]
  have hcum : cumOf [[1, 0], [0, 1]] = [[1, 1], [0, 1]] := by
    rw [cumOf, hnorm]
    norm_num [cumsumRow, cumsumFrom]
  have hvals : sampledVals [[1, 0], [0, 1]] none (fun i => if i = 0 then 1/4 else 1/2)
      = [0, 1] := by
    rw [sampledVals, positionsOf, hcum]
    norm_num [List.range_succ, posOf, argmaxBool, firstTrue, catsOf]
  refine ⟨?_, by norm_num, by norm_num, by norm_num⟩
  rw [nps_nhpp_eq_mat, hvals]
  norm_num [List.range_succ]

/-- Claim C4, witness for the amended theorem on the matrix `[[1,0],[0,1]]`
with default categories. -/
theorem nps_nhpp_output_shape_witness :
    nps_nhpp [[1, 0], [0, 1]] "none" none (fun i => if i = 0 then 1/4 else 1/2)
      = (false, NpsOut.vec
          (sampledVals [[1, 0], [0, 1]] none (fun i => if i = 0 then 1/4 else 1/2)))
    ∧ (sampledVals [[1, 0], [0, 1]] none (fun i => if i = 0 then 1/4 else 1/2)).length
        = 2 := by
  have h := nps_nhpp_output_shape_amended [[1, 0], [0, 1]] none
    (fun i => if i = 0 then 1/4 else 1/2) 2 (by norm_num)
    (by intro row hr; simp only [List.mem_cons, List.not_mem_nil, or_false] at hr
        rcases hr with rfl | rfl <;> rfl)
    (by intro cs hcs; simp at hcs)
  exact ⟨h.1.1, h.1.2.1⟩

/-- Claim C5 (code bug).  On the matrix `[[1,0],[0,1]]` with draws
`u0 = 1/3, u1 = 2/3`, the `"uniform"` call returns the broadcast 2 × 2 array
`[[label0 + u0, label1 + u0], [label0 + u1, label1 + u1]]`, not the claimed
per-row vector `[label0 + u0, label1 + u1] = [1/3, 5/3]`; its entry `4/3`
(row 0) lies outside `[0, 1)`, the claimed interval for row 0's selected
category 0. -/
theorem nps_nhpp_jitter_broadcast_bug :
    nps_nhpp [[1, 0], [0, 1]] "uniform" none (fun i => if i = 0 then 1/3 else 2/3)
      = (false, NpsOut.mat [[1/3, 4/3], [2/3, 5/3]])
    ∧ NpsOut.mat [[1/3, 4/3], [2/3, 5/3]] ≠ NpsOut.vec [1/3, 5/3]
    ∧ ¬((4 : ℚ)/3 < 0 + 1) := by
  have hnorm : normalizeMatrix [[1, 0], [0, 1]] = [[1, 0], [0, 1]] := by
    norm_num [normalizeMatrix, isclose1, iscloseTol, abs_le]
  have hcum : cumOf [[1, 0], [0, 1]] = [[1, 1], [0, 1]] := by
    rw [cumOf, hnorm]
    norm_num [cumsumRow, cumsumFrom]
  have hvals : sampledVals [[1, 0], [0, 1]] none (fun i => if i = 0 then 1/3 else 2/3)
      = [0, 1] := by
    rw [sampledVals, positionsOf, hcum]
    norm_num [List.range_succ, posOf, argmaxBool, firstTrue, catsOf]
  refine ⟨?_, by simp, by norm_num⟩
  rw [nps_nhpp_eq_mat, hvals]
  norm_num [List.range_succ]

/-- Claim C7 (code bug).  With the unrecognized correction string `"typo"`,
the code prints the warning of lines 59-61 (modelled by the `true` flag) and
still returns a sampled result — `corresponding_values` is overwritten at
line 87 and returned — instead of raising an `InvalidCorrectionModeError`
and producing no sample. -/
theorem nps_nhpp_invalid_correction_no_error :
    nps_nhpp [[1]] "typo" none (fun _ => 1/2) = (true, NpsOut.vec [0]) := by
  have hnorm : normalizeMatrix [[1]] = [[1]] := by
    norm_num [normalizeMatrix, isclose1, iscloseTol, abs_le]
  have hcum : cumOf [[1]] = [[1]] := by
    rw [cumOf, hnorm]
    norm_num [cumsumRow, cumsumFrom]
  have hvals : sampledVals [[1]] none (fun _ => 1/2) = [0] := by
    rw [sampledVals, positionsOf, hcum]
    norm_num [List.range_succ, posOf, argmaxBool, firstTrue, catsOf]
  rw [nps_nhpp_eq_vec _ _ _ _ (by simp), hvals]
  rfl

/-- Claim C9 (confirmed).  With the random source injected as an explicit
sequence of per-row draws, `nps_nhpp` is a pure function of its inputs: the
output depends only on the matrix, correction mode, category labels, and the
draws actually consumed (one per row), so two runs with identical inputs and
identical draws return identical outputs. -/
theorem nps_nhpp_deterministic (m : List (List ℚ)) (correction : String)
    (cats : Option (List ℚ)) (u u' : ℕ → ℚ)
    (h : ∀ i, i < m.length → u i = u' i) :
    nps_nhpp m correction cats u = nps_nhpp m correction cats u' := by
  have hpos : positionsOf (cumOf m) u = positionsOf (cumOf m) u' := by
    unfold positionsOf
    apply List.map_congr_left
    intro i hi
    rw [List.mem_range, cumOf_length] at hi
    rw [h i hi]
  have hvals : sampledVals m cats u = sampledVals m cats u' := by
    unfold sampledVals
    rw [hpos]
  by_cases hc : correction = "uniform"
  · subst hc
    rw [nps_nhpp_eq_mat, nps_nhpp_eq_mat, hvals]
    have hrows : ((List.range m.length).map fun i =>
        (sampledVals m cats u').map fun v => v + u i)
        = (List.range m.length).map fun i =>
            (sampledVals m cats u').map fun v => v + u' i := by
      apply List.map_congr_left
      intro i hi
      rw [List.mem_range] at hi
      rw [h i hi]
    rw [hrows]
  · rw [nps_nhpp_eq_vec m _ cats u hc, nps_nhpp_eq_vec m _ cats u' hc, hvals]

/-- Claim C9, witness: two draw sequences that agree on the single consumed
draw (but differ beyond it) give identical outputs. -/
theorem nps_nhpp_deterministic_witness :
    nps_nhpp [[1]] "none" none (fun i => if i = 0 then 1/2 else 0)
      = nps_nhpp [[1]] "none" none (fun i => if i = 0 then 1/2 else 1) := by
  apply nps_nhpp_deterministic
  intro i hi
  have h0 : i = 0 := by
    simpa using Nat.lt_one_iff.mp (by simpa using hi)
  subst h0
  rfl

lemma cumsumFrom_of_zero (l : List ℚ) (hl : ∀ x ∈ l, x = 0) (acc : ℚ) :
    ∀ c ∈ cumsumFrom acc l, c = acc := by
  induction l generalizing acc with
  | nil => intro c hc; simp [cumsumFrom] at hc
  | cons r rs ih =>
      intro c hc
      have hr : r = 0 := hl r (List.mem_cons_self r rs)
      subst hr
      rw [cumsumFrom, add_zero] at hc
      rcases List.mem_cons.mp hc with hc | hc
      · exact hc
      · exact ih (fun x hx => hl x (List.mem_cons_of_mem _ hx)) acc c hc

lemma posOf_zero_row (cz : List ℚ) (u : ℚ) (hz : ∀ c ∈ cz, c = 0) :
    posOf cz u = 0 := by
  by_cases hu : u ≤ 0
  · cases cz with
    | nil => rfl
    | cons c cs =>
        have hc : c = 0 := hz c (List.mem_cons_self c cs)
        subst hc
        unfold posOf argmaxBool
        rw [List.map_cons, decide_eq_true hu]
        simp [firstTrue]
  · unfold posOf argmaxBool
    rw [firstTrue_eq_none]
    · rfl
    · intro b hb
      obtain ⟨c, hc, rfl⟩ := List.mem_map.mp hb
      rw [hz c hc]
      exact decide_eq_false hu

lemma sampledVals_getD (m : List (List ℚ)) (cats : Option (List ℚ)) (u : ℕ → ℚ)
    (i : ℕ) (hi : i < m.length) :
    (sampledVals m cats u).getD i 0
      = (catsOf m cats).getD ((positionsOf (cumOf m) u).getD i 0) 0 := by
  unfold sampledVals
  have hlen : i < (positionsOf (cumOf m) u).length := by
    rw [positionsOf_length, cumOf_length]
    exact hi
  rw [List.getD_eq_getElem?_getD, List.getElem?_map, List.getElem?_eq_getElem hlen,
    List.getD_eq_getElem _ _ hlen]
  rfl

/-- Claim C10 (confirmed).  A matrix containing an all-zero row fails the
isclose row-sum check, so the guard-free division of every row by its own sum
runs (for the zero row this is a division by zero — NaN entries in numpy, a
`RuntimeWarning` but no exception); the call still returns a full vector of
samples, and the zero row's sampled position is 0, giving the first category
label. -/
theorem nps_nhpp_zero_row_first_category (m : List (List ℚ))
    (cats : Option (List ℚ)) (u : ℕ → ℚ) (i : ℕ) (hi : i < m.length)
    (hzi : ∀ x ∈ m.getD i [], x = 0) :
    ¬((m.all fun r => isclose1 r.sum) = true)
    ∧ (positionsOf (cumOf m) u).getD i 0 = 0
    ∧ nps_nhpp m "none" cats u = (false, NpsOut.vec (sampledVals m cats u))
    ∧ (sampledVals m cats u).length = m.length
    ∧ (sampledVals m cats u).getD i 0 = (catsOf m cats).getD 0 0 := by
  have hnotall : ¬((m.all fun r => isclose1 r.sum) = true) := by
    intro hall
    rw [List.all_eq_true] at hall
    have hrow := hall (m.getD i []) (getD_row_mem m i hi)
    rw [List.sum_eq_zero hzi] at hrow
    norm_num [isclose1, iscloseTol, abs_le] at hrow
  have hpos : (positionsOf (cumOf m) u).getD i 0 = 0 := by
    have hicum : i < (cumOf m).length := by rw [cumOf_length]; exact hi
    rw [positionsOf_getD (cumOf m) u i hicum, cumOf_getD m i hi]
    apply posOf_zero_row
    have hrowz : ∀ x ∈ (normalizeMatrix m).getD i [], x = 0 := by
      rw [normalizeMatrix_getD m i hi, if_neg hnotall]
      intro x hx
      obtain ⟨y, hy, rfl⟩ := List.mem_map.mp hx
      rw [hzi y hy, zero_div]
    intro c hc
    exact cumsumFrom_of_zero _ hrowz 0 c hc
  refine ⟨hnotall, hpos, nps_nhpp_eq_vec m "none" cats u (by simp),
    sampledVals_length m cats u, ?_⟩
  rw [sampledVals_getD m cats u i hi, hpos]

/-- Claim C10, witness at the matrix `[[0,0],[1/2,1/2]]` whose first row is
all zeros, with draw 1/2. -/
theorem nps_nhpp_zero_row_witness :
    (positionsOf (cumOf [[0, 0], [1/2, 1/2]]) (fun _ => 1/2)).getD 0 0 = 0
    ∧ (sampledVals [[0, 0], [1/2, 1/2]] none (fun _ => 1/2)).getD 0 0
        = (catsOf [[0, 0], [1/2, 1/2]] none).getD 0 0 := by
  have h := nps_nhpp_zero_row_first_category [[0, 0], [1/2, 1/2]] none
    (fun _ => 1/2) 0 (by norm_num)
    (by intro x hx; simp only [List.getD] at hx; simpa using hx)
  exact ⟨h.2.1, h.2.2.2.2⟩

lemma sum_map_div (l : List ℚ) (c : ℚ) : (l.map fun x => x / c).sum = l.sum / c := by
  induction l with
  | nil => simp
  | cons x xs ih => simp [ih, add_div]

/-- Claim C6 (amended).  The renormalization of lines 67-69 is gated on
numpy's `np.isclose` with default tolerances, i.e. `|sum - 1| <= 1e-8 + 1e-5`,
not on a 1e-8 test, and it is triggered globally: when every row passes the
isclose test the matrix is left untouched (so a row whose sum is off by more
than 1e-8 but less than the isclose tolerance is NOT renormalized and does not
sum to 1); when any row fails, every row is divided by its own sum, after
which every row with a nonzero sum sums to exactly 1.  No row is ever
dropped, and `[0.3, 0.3, 0.3]` becomes `[1/3, 1/3, 1/3]`. -/
theorem nps_nhpp_renormalization_amended (m : List (List ℚ)) :
    ((∀ r ∈ m, isclose1 r.sum = true) → normalizeMatrix m = m)
    ∧ (¬(∀ r ∈ m, isclose1 r.sum = true) →
        (normalizeMatrix m).length = m.length
        ∧ ∀ i, i < m.length →
            (normalizeMatrix m).getD i []
                = (m.getD i []).map (fun x => x / (m.getD i []).sum)
            ∧ ((m.getD i []).sum ≠ 0 → ((normalizeMatrix m).getD i []).sum = 1))
    ∧ normalizeMatrix [[3/10, 3/10, 3/10]] = [[1/3, 1/3, 1/3]] := by
  refine ⟨?_, ?_, by norm_num [normalizeMatrix, isclose1, iscloseTol, abs_le]⟩
  · intro h
    unfold normalizeMatrix
    rw [if_pos (List.all_eq_true.mpr h)]
  · intro h
    have hcond : ¬((m.all fun r => isclose1 r.sum) = true) := by
      rw [List.all_eq_true]
      exact h
    refine ⟨normalizeMatrix_length m, ?_⟩
    intro i hi
    have hgd : (normalizeMatrix m).getD i []
        = (m.getD i []).map (fun x => x / (m.getD i []).sum) := by
      rw [normalizeMatrix_getD m i hi, if_neg hcond]
    refine ⟨hgd, ?_⟩
    intro hs
    rw [hgd, sum_map_div, div_self hs]

/-- Claim C6, counterexample to the stated 1e-8 gate.  The single-row matrix
`[[1 + 1e-6]]` has a row sum that is NOT within 1e-8 of 1, yet it passes the
isclose test and is returned unrenormalized; the cumulative matrix the
sampler then compares the draws against is built from this unrenormalized
row, so sampling proceeds on a row whose sum is not 1. -/
theorem nps_nhpp_renormalization_cex :
    normalizeMatrix [[1 + 1/1000000]] = [[1 + 1/1000000]]
    ∧ ([1 + 1/1000000] : List ℚ).sum = 1 + 1/1000000
    ∧ ¬(|(1 + 1/1000000 : ℚ) - 1| ≤ 1/100000000)
    ∧ (1 + 1/1000000 : ℚ) ≠ 1
    ∧ cumOf [[1 + 1/1000000]] = [[1 + 1/1000000]] := by
  have hnorm : normalizeMatrix [[1 + 1/1000000]] = [[1 + 1/1000000]] := by
    norm_num [normalizeMatrix, isclose1, iscloseTol, abs_le]
  refine ⟨hnorm, by norm_num, by norm_num [abs_le], by norm_num, ?_⟩
  rw [cumOf, hnorm]
  norm_num [cumsumRow, cumsumFrom]

/-- Claim C6, witness for the amended theorem: the matrix `[[0.3, 0.3, 0.3]]`
fails the isclose test, keeps its single row, and that row sums to 1 after
the division by its own sum. -/
theorem nps_nhpp_renormalization_witness :
    (normalizeMatrix [[3/10, 3/10, 3/10]]).length = 1
    ∧ ((normalizeMatrix [[3/10, 3/10, 3/10]]).getD 0 []).sum = 1 := by
  have h := nps_nhpp_renormalization_amended [[3/10, 3/10, 3/10]]
  have hnot : ¬(∀ r ∈ ([[3/10, 3/10, 3/10]] : List (List ℚ)), isclose1 r.sum = true) := by
    intro hall
    have := hall [3/10, 3/10, 3/10] (List.mem_cons_self _ _)
    norm_num [isclose1, iscloseTol, abs_le] at this
  have hb := h.2.1 hnot
  refine ⟨hb.1, ?_⟩
  exact (hb.2 0 (by norm_num)).2 (by norm_num)

lemma zipWith_sub_sum (l : List ℚ) :
    ∀ y : ℚ, y + (List.zipWith (fun a b => a - b) l (y :: l)).sum = (y :: l).getLastD 0 := by
  induction l with
  | nil => intro y; simp [List.getLastD]
  | cons x xs ih =>
      intro y
      rw [List.zipWith_cons_cons, List.sum_cons]
      have hx := ih x
      rw [List.getLastD_cons, List.getLastD_cons]
      rw [List.getLastD_cons] at hx
      linarith

/-- Telescoping: the `p_t` column of one stratum sums to the last cumulative
failure value. -/
lemma diffFill_sum (l : List ℚ) : (diffFill l).sum = l.getLastD 0 := by
  cases l with
  | nil => simp [diffFill, List.getLastD]
  | cons f fs =>
      show (f :: List.zipWith (fun a b => a - b) fs (f :: fs)).sum = (f :: fs).getLastD 0
      rw [List.sum_cons]
      exact zipWith_sub_sum fs f

/-- The completed per-stratum PMF sums to exactly 1, for every rate column and
every survival transform: the appended `1 - F(last)` mass closes the
telescoping sum. -/
lemma completedPMF_sum (expNeg : ℚ → ℚ) (rates : List ℚ) :
    (completedPMF expNeg rates).sum = 1 := by
  unfold completedPMF p_t
  rw [List.sum_append, diffFill_sum, List.sum_cons, List.sum_nil]
  ring

lemma zipWith_sub_nonneg (l : List ℚ) :
    ∀ y : ℚ, List.Chain (· ≤ ·) y l →
      ∀ p ∈ List.zipWith (fun a b => a - b) l (y :: l), 0 ≤ p := by
  induction l with
  | nil => intro y _ p hp; simp at hp
  | cons x xs ih =>
      intro y hch p hp
      rw [List.zipWith_cons_cons] at hp
      obtain ⟨hyx, hchx⟩ := List.chain_cons.mp hch
      rcases List.mem_cons.mp hp with rfl | hp
      · linarith
      · exact ih x hchx p hp

lemma cumsumFrom_chain (acc : ℚ) (l : List ℚ) (hl : ∀ r ∈ l, 0 ≤ r) :
    List.Chain (· ≤ ·) acc (cumsumFrom acc l) := by
  induction l generalizing acc with
  | nil => exact List.Chain.nil
  | cons r rs ih =>
      rw [cumsumFrom]
      refine List.chain_cons.mpr ⟨?_, ?_⟩
      · have := hl r (List.mem_cons_self r rs)
        linarith
      · exact ih (acc + r) fun q hq => hl q (List.mem_cons_of_mem _ hq)

lemma chain_map_mono (g : ℚ → ℚ) (hg : ∀ x y, 0 ≤ x → x ≤ y → g x ≤ g y) :
    ∀ (l : List ℚ) (a : ℚ), 0 ≤ a → List.Chain (· ≤ ·) a l →
      List.Chain (· ≤ ·) (g a) (l.map g) := by
  intro l
  induction l with
  | nil => intro a _ _; exact List.Chain.nil
  | cons x xs ih =>
      intro a ha hch
      obtain ⟨hax, hchx⟩ := List.chain_cons.mp hch
      rw [List.map_cons]
      exact List.chain_cons.mpr ⟨hg a x ha hax, ih x (le_trans ha hax) hchx⟩

lemma F_t_eq_map (expNeg : ℚ → ℚ) (rates : List ℚ) :
    F_t expNeg rates = (cumsumFrom 0 rates).map fun h => 1 - expNeg h := by
  unfold F_t S_t H_t cumsumRow
  rw [List.map_map]
  rfl

lemma H_t_mem_nonneg (rates : List ℚ) (hr : ∀ r ∈ rates, 0 ≤ r) :
    ∀ h ∈ H_t rates, 0 ≤ h := by
  intro h hh
  exact cumsumFrom_le 0 rates hr h hh

/-- Claim C3 (confirmed).  For nonnegative hazard increments and a survival
transform with the relevant properties of `x ↦ exp(-x)` on the nonnegative
axis (antitone, valued in `[0, 1]`), the completed per-stratum PMF is a valid
probability distribution: it sums to exactly 1 (hence within the 1e-8
tolerance) and every per-category probability, the synthetic terminal one
included, is nonnegative. -/
theorem completedPMF_valid_distribution (expNeg : ℚ → ℚ) (rates : List ℚ)
    (hmono : ∀ x y, 0 ≤ x → x ≤ y → expNeg y ≤ expNeg x)
    (hle1 : ∀ x, 0 ≤ x → expNeg x ≤ 1)
    (hnn : ∀ x, 0 ≤ x → 0 ≤ expNeg x)
    (hr : ∀ r ∈ rates, 0 ≤ r) :
    (completedPMF expNeg rates).sum = 1
    ∧ |(completedPMF expNeg rates).sum - 1| ≤ 1/100000000
    ∧ ∀ p ∈ completedPMF expNeg rates, 0 ≤ p := by
  refine ⟨completedPMF_sum expNeg rates, by rw [completedPMF_sum]; norm_num, ?_⟩
  have hHnn : ∀ h ∈ H_t rates, 0 ≤ h := H_t_mem_nonneg rates hr
  have hFmem : ∀ f ∈ F_t expNeg rates, ∃ h, h ∈ H_t rates ∧ f = 1 - expNeg h := by
    intro f hf
    rw [F_t_eq_map] at hf
    obtain ⟨h, hh, rfl⟩ := List.mem_map.mp hf
    exact ⟨h, hh, rfl⟩
  have hchainF : List.Chain (· ≤ ·) (1 - expNeg 0) (F_t expNeg rates) := by
    rw [F_t_eq_map]
    refine chain_map_mono (fun h => 1 - expNeg h) ?_ (cumsumFrom 0 rates) 0 le_rfl
      (cumsumFrom_chain 0 rates hr)
    intro x y hx hxy
    have := hmono x y hx hxy
    show 1 - expNeg x ≤ 1 - expNeg y
    linarith
  intro p hp
  unfold completedPMF at hp
  rcases List.mem_append.mp hp with hp | hp
  · unfold p_t at hp
    cases hF : F_t expNeg rates with
    | nil => rw [hF] at hp; simp [diffFill] at hp
    | cons f fs =>
        rw [hF] at hp
        rw [show diffFill (f :: fs) = f :: List.zipWith (fun a b => a - b) fs (f :: fs)
          from rfl] at hp
        rcases List.mem_cons.mp hp with rfl | hp
        · obtain ⟨h, hh, hfeq⟩ := hFmem p (hF ▸ List.mem_cons_self p fs)
          have h0 : 0 ≤ h := hHnn h hh
          have := hle1 h h0
          rw [hfeq]
          linarith
        · rw [hF] at hchainF
          exact zipWith_sub_nonneg fs f (List.chain_cons.mp hchainF).2 p hp
  · rw [List.mem_singleton] at hp
    subst hp
    cases hF : F_t expNeg rates with
    | nil => simp [List.getLastD]
    | cons f fs =>
        have hlast : (f :: fs).getLastD 0 ∈ f :: fs :=
          getLastD_mem (f :: fs) (List.cons_ne_nil f fs) 0
        obtain ⟨h, hh, hfeq⟩ := hFmem _ (hF ▸ hlast)
        have := hnn h (hHnn h hh)
        rw [hF] at hfeq
        rw [hfeq]
        linarith

/-- Claim C3, witness with the antitone transform `x ↦ 1/(1+x)` and the rate
column `[0.01, 0.02]`: the completed PMF sums to exactly 1. -/
theorem completedPMF_valid_distribution_witness :
    (completedPMF (fun x => 1/(1+x)) [1/100, 2/100]).sum = 1 := by
  have h := completedPMF_valid_distribution (fun x => 1/(1+x)) [1/100, 2/100]
    (by intro x y hx hxy
        exact one_div_le_one_div_of_le (by linarith) (by linarith))
    (by intro x hx
        rw [div_le_one (by linarith)]
        linarith)
    (by intro x hx
        exact div_nonneg (by norm_num) (by linarith))
    (by intro r hrm
        simp only [List.mem_cons, List.not_mem_nil, or_false] at hrm
        rcases hrm with rfl | rfl <;> norm_num)
  exact h.1

lemma cumsumFrom_getD (l : List ℚ) : ∀ (acc : ℚ) (t : ℕ), t < l.length →
    (cumsumFrom acc l).getD t 0 = acc + (l.take (t+1)).sum := by
  induction l with
  | nil => intro acc t ht; exact absurd ht (Nat.not_lt_zero t)
  | cons r rs ih =>
      intro acc t ht
      cases t with
      | zero => simp [cumsumFrom]
      | succ t' =>
          rw [cumsumFrom]
          show (cumsumFrom (acc + r) rs).getD t' 0 = acc + ((r :: rs).take (t' + 2)).sum
          rw [ih (acc + r) t' (Nat.lt_of_succ_lt_succ ht), List.take_succ_cons,
            List.sum_cons]
          ring

lemma F_t_length (expNeg : ℚ → ℚ) (rates : List ℚ) :
    (F_t expNeg rates).length = rates.length := by
  unfold F_t S_t H_t cumsumRow
  rw [List.length_map, List.length_map, cumsumFrom_length]

lemma diffFill_length (l : List ℚ) : (diffFill l).length = l.length := by
  cases l with
  | nil => rfl
  | cons f fs =>
      show (f :: List.zipWith (fun a b => a - b) fs (f :: fs)).length = fs.length + 1
      rw [List.length_cons, List.length_zipWith]
      simp

lemma p_t_length (expNeg : ℚ → ℚ) (rates : List ℚ) :
    (p_t expNeg rates).length = rates.length := by
  unfold p_t
  rw [diffFill_length, F_t_length]

lemma p_t_getD_zero (expNeg : ℚ → ℚ) (rates : List ℚ) :
    (p_t expNeg rates).getD 0 0 = (F_t expNeg rates).getD 0 0 := by
  unfold p_t
  cases hF : F_t expNeg rates with
  | nil => rfl
  | cons f fs => rfl

lemma p_t_getD_succ (expNeg : ℚ → ℚ) (rates : List ℚ) (t : ℕ) (ht : 0 < t)
    (hlen : t < rates.length) :
    (p_t expNeg rates).getD t 0
      = (F_t expNeg rates).getD t 0 - (F_t expNeg rates).getD (t-1) 0 := by
  obtain ⟨t', rfl⟩ : ∃ t', t = t' + 1 := ⟨t - 1, (Nat.succ_pred_eq_of_pos ht).symm⟩
  cases hF : F_t expNeg rates with
  | nil =>
      have := F_t_length expNeg rates
      rw [hF] at this
      rw [← this] at hlen
      exact absurd hlen (Nat.not_lt_zero _)
  | cons f fs =>
      have hlenF : t' + 1 < fs.length + 1 := by
        have hl := F_t_length expNeg rates
        rw [hF, List.length_cons] at hl
        rw [← hl] at hlen
        exact hlen
      have ht' : t' < fs.length := Nat.lt_of_succ_lt_succ hlenF
      have htz : t' < (List.zipWith (fun a b => a - b) fs (f :: fs)).length := by
        rw [List.length_zipWith]
        simp only [List.length_cons]
        omega
      unfold p_t
      rw [hF]
      show (f :: List.zipWith (fun a b => a - b) fs (f :: fs)).getD (t' + 1) 0
        = (f :: fs).getD (t' + 1) 0 - (f :: fs).getD (t' + 1 - 1) 0
      rw [List.getD_cons_succ, Nat.add_sub_cancel]
      rw [List.getD_eq_getElem _ _ htz, List.getElem_zipWith]
      have hfs : t' + 1 < (f :: fs).length := by
        rw [List.length_cons]
        omega
      have hc : t' < (f :: fs).length := by
        rw [List.length_cons]
        omega
      rw [List.getD_eq_getElem _ _ hfs, List.getElem_cons_succ,
        List.getD_eq_getElem _ _ hc]

lemma buildStratum_length (expNeg : ℚ → ℚ) (rows : List (ℚ × ℚ)) :
    (buildStratum expNeg rows).length = rows.length + 1 := by
  unfold buildStratum
  rw [List.length_append, List.length_zip, List.length_map, p_t_length,
    List.length_map]
  simp

lemma buildStratum_getLast (expNeg : ℚ → ℚ) (rows : List (ℚ × ℚ)) :
    (buildStratum expNeg rows).getLast?
      = some (101, 1 - (F_t expNeg (rows.map Prod.snd)).getLastD 0) := by
  unfold buildStratum
  exact List.getLast?_concat _

/-- Numeric check for the end-to-end example: the real exponential
`exp(-0.06)`, which floating-point `np.exp` approximates, is within 0.001 of
0.9418. -/
lemma exp_neg_six_hundredths_near : |Real.exp (-(3/50 : ℝ)) - 9418/10000| < 1/1000 := by
  have hlow : (97/100 : ℝ) ≤ Real.exp (-(3/100)) := by
    have := Real.add_one_le_exp (-(3/100) : ℝ)
    linarith
  have hup : (103/100 : ℝ) ≤ Real.exp (3/100) := by
    have := Real.add_one_le_exp ((3/100) : ℝ)
    linarith
  have hsplit : Real.exp (-(3/50 : ℝ)) = Real.exp (-(3/100)) * Real.exp (-(3/100)) := by
    rw [← Real.exp_add]
    norm_num
  have hsplit2 : Real.exp ((3/50 : ℝ)) = Real.exp (3/100) * Real.exp (3/100) := by
    rw [← Real.exp_add]
    norm_num
  have hlb : (9409/10000 : ℝ) ≤ Real.exp (-(3/50 : ℝ)) := by
    rw [hsplit]
    nlinarith [Real.exp_pos (-(3/100) : ℝ)]
  have hub : Real.exp (-(3/50 : ℝ)) ≤ 10000/10609 := by
    have hge : (10609/10000 : ℝ) ≤ Real.exp (3/50) := by
      rw [hsplit2]
      nlinarith [Real.exp_pos ((3/100) : ℝ)]
    have hmul : Real.exp (-(3/50 : ℝ)) * Real.exp ((3/50 : ℝ)) = 1 := by
      rw [← Real.exp_add]
      norm_num
    nlinarith [Real.exp_pos (-(3/50) : ℝ), Real.exp_pos ((3/50) : ℝ)]
  rw [abs_lt]
  constructor <;> nlinarith

/-- Claim C2 (amended).  For every stratum, the pipeline computes `H_t` as the
running sum of the rate increments, `p_t(0) = F_t(0)`,
`p_t(t) = F_t(t) - F_t(t-1)` for `t > 0`, and appends exactly one synthetic
terminal row carrying probability `1 - F_t(last)`; the appended row's
category index is the hardcoded constant 101 (equal to "max observed
category + 1" only for the full mortality table with ages 0..100), not "max
observed category + 1" in general.  For increments
`[(0, 0.01), (1, 0.02), (2, 0.03)]` this yields `H = [0.01, 0.03, 0.06]` and
terminal mass `expNeg 0.06`, where the real value `exp(-0.06)` is within
0.001 of 0.9418. -/
theorem buildStratum_pipeline_amended (expNeg : ℚ → ℚ) (rows : List (ℚ × ℚ)) :
    (∀ t, t < (rows.map Prod.snd).length →
        (H_t (rows.map Prod.snd)).getD t 0 = ((rows.map Prod.snd).take (t+1)).sum)
    ∧ (p_t expNeg (rows.map Prod.snd)).getD 0 0
        = (F_t expNeg (rows.map Prod.snd)).getD 0 0
    ∧ (∀ t, 0 < t → t < (rows.map Prod.snd).length →
        (p_t expNeg (rows.map Prod.snd)).getD t 0
          = (F_t expNeg (rows.map Prod.snd)).getD t 0
            - (F_t expNeg (rows.map Prod.snd)).getD (t-1) 0)
    ∧ (buildStratum expNeg rows).length = rows.length + 1
    ∧ (buildStratum expNeg rows).getLast?
        = some (101, 1 - (F_t expNeg (rows.map Prod.snd)).getLastD 0)
    ∧ H_t [1/100, 2/100, 3/100] = [1/100, 3/100, 6/100]
    ∧ (buildStratum expNeg [(0, 1/100), (1, 2/100), (2, 3/100)]).getLast?
        = some (101, expNeg (3/50))
    ∧ |Real.exp (-(3/50 : ℝ)) - 9418/10000| < 1/1000 := by
  refine ⟨?_, p_t_getD_zero expNeg _, p_t_getD_succ expNeg _,
    buildStratum_length expNeg rows, buildStratum_getLast expNeg rows,
    by norm_num [H_t, cumsumRow, cumsumFrom], ?_, exp_neg_six_hundredths_near⟩
  · intro t ht
    unfold H_t cumsumRow
    rw [cumsumFrom_getD _ 0 t ht, zero_add]
  · rw [buildStratum_getLast]
    norm_num [F_t, S_t, H_t, cumsumRow, cumsumFrom, List.getLastD]

/-- Claim C2, counterexample to the "index = max observed category + 1"
clause: for the stratum with observed categories 0, 1, 2 the appended
synthetic row has category index 101 (the hardcoded constant of line 46),
although max observed category + 1 is 3. -/
theorem buildStratum_terminal_index_cex :
    (buildStratum (fun x => 1 - x) [(0, 1/100), (1, 2/100), (2, 3/100)]).getLast?
      = some (101, 47/50)
    ∧ ((([(0, 1/100), (1, 2/100), (2, 3/100)] : List (ℚ × ℚ)).map Prod.fst).getLastD 0)
        + 1 = 3
    ∧ (101 : ℚ) ≠ 3 := by
  refine ⟨?_, by norm_num [List.getLastD], by norm_num⟩
  rw [buildStratum_getLast]
  norm_num [F_t, S_t, H_t, cumsumRow, cumsumFrom, List.getLastD]

/-- Claim C2, witness for the amended theorem at the example stratum with the
transform `x ↦ 1 - x`. -/
theorem buildStratum_pipeline_witness :
    (H_t (([(0, 1/100), (1, 2/100), (2, 3/100)] : List (ℚ × ℚ)).map Prod.snd)).getD 1 0
        = ((([(0, 1/100), (1, 2/100), (2, 3/100)] : List (ℚ × ℚ)).map Prod.snd).take 2).sum
    ∧ (buildStratum (fun x => (1:ℚ) - x) [(0, 1/100), (1, 2/100), (2, 3/100)]).getLast?
        = some (101, (fun x => (1:ℚ) - x) (3/50)) := by
  have h := buildStratum_pipeline_amended (fun x => (1:ℚ) - x)
    [(0, 1/100), (1, 2/100), (2, 3/100)]
  exact ⟨h.1 1 (by norm_num), h.2.2.2.2.2.2.1⟩
